import Mathlib

/-!
Verification development for a PDF question-answering service.

The service (an Express route in the backend entry file, together with the
retrieval core in vectorStore.js) answers questions against uploaded PDF
documents.  Strings of the JavaScript source are modelled as lists of
characters (`List Char`); JavaScript numbers are modelled as real numbers;
external capabilities (PDF text extraction, the embedding provider and the
completion model) are modelled as oracle functions returning `Except`.
-/

namespace QA

/-! ## Character and string primitives

JavaScript regular-expression character class `\s` (the main members that can
occur in extracted text): space, tab, line feed, carriage return, vertical tab,
form feed and no-break space. -/

def isJsSpace (c : Char) : Bool :=
  c == ' ' || c == '\t' || c == '\n' || c == '\r' || c == '\x0b' || c == '\x0c' ||
    c == '\u00A0'

/-- Model of `String.prototype.trim`: whitespace removed from both ends. -/
def jsTrim (s : List Char) : List Char :=
  ((s.dropWhile isJsSpace).reverse.dropWhile isJsSpace).reverse

/-- Splitting a character list at every delimiter character (the behaviour of
`String.prototype.split` with a single-character separator or a character
class): consecutive delimiters and delimiters at the ends produce empty
pieces. -/
def splitCh (p : Char → Bool) : List Char → List (List Char)
  | [] => [[]]
  | c :: cs =>
    if p c then [] :: splitCh p cs
    else
      match splitCh p cs with
      | [] => [[c]]
      | w :: ws => (c :: w) :: ws

/-- Model of `text.split(/\s+/).filter(Boolean)`: the maximal runs of
non-whitespace characters, in order. -/
def jsWordsL (s : List Char) : List (List Char) :=
  (splitCh isJsSpace s).filter (· ≠ [])

/-- Model of `words.join(" ")`. -/
def joinSpace (ws : List (List Char)) : List Char :=
  List.intercalate [' '] ws

/-! ## Text segmentation (vectorStore.js, the split-into-pages block)

The source loop is

  for (let i = 0; i < words.length; i += chunkSizeWords) \x7b
    pages.push(words.slice(i, i + chunkSizeWords).join(" "));
    if (pages.length >= maxPages) break;
  \x7d

`chunkWordsGo` carries the remaining page budget `maxPages - pages.length`
explicitly; the break fires as soon as the budget after the push is
exhausted. -/

def chunkWordsGo (csw : ℕ) : ℕ → List (List Char) → List (List Char)
  | _, [] => []
  | 0, ws => [joinSpace (ws.take csw)]
  | 1, ws => [joinSpace (ws.take csw)]
  | budget + 2, ws => joinSpace (ws.take csw) :: chunkWordsGo csw (budget + 1) (ws.drop csw)

/-- First statement of the page-splitting block: form-feed splitting when a
form feed is present (trimming each piece and dropping empty pieces),
fixed-size word chunking otherwise. -/
def rawPages (fullText : List Char) (csw mp : ℕ) : List (List Char) :=
  if fullText.contains '\x0c' then
    ((splitCh (· == '\x0c') fullText).map jsTrim).filter (· ≠ [])
  else
    chunkWordsGo csw mp (jsWordsL fullText)

/-- Second statement: `if (!pages.length) pages = [fullText || ""]`. -/
def withFallback (fullText : List Char) (pages : List (List Char)) : List (List Char) :=
  if pages = [] then [fullText] else pages

/-- Third statement: `if (pages.length > maxPages) pages = pages.slice(0, maxPages)`. -/
def capPages (mp : ℕ) (pages : List (List Char)) : List (List Char) :=
  if mp < pages.length then pages.take mp else pages

/-- Model of the page-splitting block of `vectorSearchForPdfBuffer`: the
three statements above in sequence. -/
def splitPages (fullText : List Char) (csw mp : ℕ) : List (List Char) :=
  capPages mp (withFallback fullText (rawPages fullText csw mp))

/-! ## Cosine similarity (vectorStore.js, function cosineSimilarity) -/

/-- Accumulated products of one loop pass: `dot`, `na` and `nb` are all
instances of this sum. -/
noncomputable def dotSum (a b : List ℝ) : ℝ :=
  (List.zipWith (fun x y => x * y) a b).sum

/-- Model of `cosineSimilarity(a, b)`: `0` on length mismatch (the source
also returns `0` when an argument is not an array, which cannot arise in the
typed model) and on a zero norm, the normalized dot product otherwise. -/
noncomputable def cosineSimilarity (a b : List ℝ) : ℝ :=
  if a.length ≠ b.length then 0
  else
    if dotSum a a = 0 ∨ dotSum b b = 0 then 0
    else dotSum a b / (Real.sqrt (dotSum a a) * Real.sqrt (dotSum b b))

/-! ## Scoring and ranking (vectorStore.js, the score / sort / slice block) -/

structure Scored where
  pageNumber : ℕ
  text : List Char
  score : ℝ

/-- Model of `pages.map((text, idx) => ...)` producing one scored unit per
page: the embedding is looked up by index (an out-of-range index yields
`undefined`, which fails the `Array.isArray` test and scores `0`), and a
length mismatch with the question vector also scores `0`. -/
noncomputable def scoreUnitsFrom (qEmb : List ℝ) (pe : List (List ℝ)) :
    ℕ → List (List Char) → List Scored
  | _, [] => []
  | idx, text :: rest =>
    { pageNumber := idx + 1
      text := text
      score :=
        match pe[idx]? with
        | some emb => if emb.length = qEmb.length then cosineSimilarity qEmb emb else 0
        | none => 0 } :: scoreUnitsFrom qEmb pe (idx + 1) rest

/-- Stable insertion step for the descending sort: the element goes in front
of the first entry whose score is not larger.  This realizes the stable
`Array.prototype.sort` with comparator `(a, b) => b.score - a.score`. -/
noncomputable def insertDesc (x : Scored) : List Scored → List Scored
  | [] => [x]
  | y :: ys => if y.score ≤ x.score then x :: y :: ys else y :: insertDesc x ys

/-- Stable descending-by-score sort, `scored.sort((a, b) => b.score - a.score)`. -/
noncomputable def sortDesc : List Scored → List Scored
  | [] => []
  | x :: xs => insertDesc x (sortDesc xs)

/-- Model of the scoring and selection tail of `vectorSearchForPdfBuffer`:
score all pages, sort descending, keep `scored.slice(0, Math.min(topK,
scored.length))`. -/
noncomputable def rank (pages : List (List Char)) (pe : List (List ℝ))
    (qEmb : List ℝ) (topK : ℕ) : List Scored :=
  (sortDesc (scoreUnitsFrom qEmb pe 0 pages)).take
    (min topK (sortDesc (scoreUnitsFrom qEmb pe 0 pages)).length)

/-- Ordering required of the ranked output: strictly larger score first, and
ascending page number between equal scores. -/
def rankRel (a b : Scored) : Prop :=
  b.score < a.score ∨ (b.score = a.score ∧ a.pageNumber < b.pageNumber)

/-! ## Embedding gateway (vectorStore.js, the batch loop)

The provider call together with its response-shape normalization
(`callProviderEmbeddings` / `normalizeProviderResponse`) is modelled as an
oracle returning either a vector list or an error; provider failures and
unnormalizable shapes are both the error case. -/

inductive EmbFail where
  | providerFailed
  | batchSizeMismatch
deriving DecidableEq

/-- One pass of the page-embedding loop, structurally recursive on a fuel
count: the batch of the first `bs` pages goes to the provider, a returned
batch whose size differs from the input batch size raises, results are
collected in order, and the loop continues on the remaining pages.  With the
batch sizes the route uses (`bs ≥ 1`) a fuel equal to the page count is never
exhausted; fuel exhaustion can only be reached with `bs = 0`, where the
source loop never advances its index and diverges, and is modelled as a
provider error. -/
def embedPagesGo (oracle : List (List Char) → Except Unit (List (List ℝ)))
    (bs : ℕ) : ℕ → List (List Char) → Except EmbFail (List (List ℝ))
  | _, [] => Except.ok []
  | 0, _ :: _ => Except.error EmbFail.providerFailed
  | fuel + 1, p :: ps =>
    match oracle ((p :: ps).take bs) with
    | Except.error _ => Except.error EmbFail.providerFailed
    | Except.ok vs =>
      if vs.length ≠ ((p :: ps).take bs).length then Except.error EmbFail.batchSizeMismatch
      else
        match embedPagesGo oracle bs fuel ((p :: ps).drop bs) with
        | Except.error e => Except.error e
        | Except.ok rest => Except.ok (vs ++ rest)

/-- Model of the page-embedding loop of `vectorSearchForPdfBuffer`. -/
def embedPagesInBatches (oracle : List (List Char) → Except Unit (List (List ℝ)))
    (bs : ℕ) (pages : List (List Char)) : Except EmbFail (List (List ℝ)) :=
  embedPagesGo oracle bs pages.length pages

inductive VsFail where
  | questionRequired
  | embeddingPagesFailed (e : EmbFail)
  | embeddingQuestionFailed
deriving DecidableEq

/-- Model of `vectorSearchForPdfBuffer` from the point where the text has
been extracted: the buffer handling and the in-function PDF extraction are
performed by the route model (an extraction failure there produces the same
500 response as one inside this function).  The prompt string built from the
top pages is not modelled; no claim depends on the prompt text, and the
completion capability is an oracle. -/
noncomputable def vectorSearchForPdfBuffer (fullText question : List Char)
    (embedB : List (List Char) → Except Unit (List (List ℝ)))
    (embedS : List Char → Except Unit (List ℝ))
    (topK csw mp bs : ℕ) : Except VsFail (List Scored) :=
  if question = [] then Except.error VsFail.questionRequired
  else
    let pages := splitPages fullText csw mp
    match embedPagesInBatches embedB bs pages with
    | Except.error e => Except.error (VsFail.embeddingPagesFailed e)
    | Except.ok pe =>
      match embedS question with
      | Except.error _ => Except.error VsFail.embeddingQuestionFailed
      | Except.ok qEmb => Except.ok (rank pages pe qEmb topK)

/-! ## Upload session manager and ask route (the Express entry file)

Multer stores each uploaded part on disk under `Date.now() + "_" +` the
sanitized original name; the route then optionally moves those files into a
per-session directory.  Sessions are modelled as an association list from
session id to the list of stored file names in that directory; prepending a
new entry models creating the directory and moving the files into it. -/

/-- Character class `[a-z0-9.\-_]` with the `i` flag of the multer filename
sanitizer. -/
def isSafeChar (c : Char) : Bool :=
  ('a' ≤ c && c ≤ 'z') || ('A' ≤ c && c ≤ 'Z') || c.isDigit || c == '.' || c == '-' || c == '_'

/-- Model of `file.originalname.replace(/[^a-z0-9.\-_]/gi, "_")`. -/
def sanitizeName (n : List Char) : List Char :=
  n.map fun c => if isSafeChar c then c else '_'

/-- Model of the multer disk-storage filename: the timestamp digits, an
underscore, then the sanitized original name. -/
def multerStoredName (stamp orig : List Char) : List Char :=
  stamp ++ '_' :: sanitizeName orig

/-- Model of `fname.replace(/^\d+_/, "")`: drop a leading run of at least one
digit together with the underscore that immediately follows it, if present. -/
def stripStamp (n : List Char) : List Char :=
  match n.takeWhile Char.isDigit, n.dropWhile Char.isDigit with
  | _ :: _, '_' :: tail => tail
  | _, _ => n

/-- ASCII lowering of a name, modelling `String.prototype.toLowerCase` on the
characters relevant to the `.pdf` suffix test. -/
def lowerName (n : List Char) : List Char :=
  n.map Char.toLower

/-- Model of `n.toLowerCase().endsWith(".pdf")`. -/
def endsWithPdfCI (n : List Char) : Bool :=
  List.isSuffixOf ['.', 'p', 'd', 'f'] (lowerName n)

/-- One uploaded file part after multer processing: the user-supplied name
and the name under which the bytes sit on disk. -/
structure ReqFile where
  originalname : List Char
  storedName : List Char
deriving DecidableEq

/-- The request fields the route reads: the file parts, the optional
`uploadId` body field and the optional `question` body field. -/
structure AskRequest where
  files : List ReqFile
  uploadIdField : Option (List Char)
  questionField : Option (List Char)

/-- Session storage: one entry per session directory, mapping the session id
to the stored file names inside the directory. -/
abbrev Sessions := List (List Char × List (List Char))

def lookupSession (st : Sessions) (uid : List Char) : Option (List (List Char)) :=
  List.lookup uid st

/-- Model of `req.body.uploadId ? String(req.body.uploadId) : null`: an
absent field and an empty string are both falsy. -/
def truthyField : Option (List Char) → Option (List Char)
  | none => none
  | some s => if s = [] then none else some s

/-- JavaScript truthiness of an optional string, as used by `if (!question)`. -/
def jsTruthy : Option (List Char) → Bool
  | none => false
  | some s => s ≠ []

/-- One entry of the `sources` array of a successful response. -/
structure SourceEntry where
  filename : List Char
  pages : List (ℕ × ℝ)

/-- Per-document result collected by the processing loop. -/
structure DocRes where
  filename : List Char
  topPages : List Scored

inductive ErrMsg where
  | noPdfsOrUploadId
  | noQuestion
  | fileFailed (originalname : List Char)
  | llmFailed

/-- The two response shapes of the route: the success JSON with answer,
sources and uploadId, and the error JSON with its HTTP status. -/
inductive Response where
  | ok (answer : List Char) (sources : List SourceEntry) (uploadId : Option (List Char))
  | err (status : ℕ) (msg : ErrMsg)

/-- External capabilities used by one request, as oracles.  The completion
oracle receives the question; the assembled prompt text is not modelled, and
no claim depends on it. -/
structure Oracles where
  extractText : List Char → Except Unit (List Char)
  embedBatch : List (List Char) → Except Unit (List (List ℝ))
  embedSingle : List Char → Except Unit (List ℝ)
  llama : List Char → Except Unit (List Char)

/-- Model of the per-file body of the processing loop: extract the text (any
of the parse attempts failing for good ends the request), then run the vector
search with the route defaults `topK = 5`, `chunkSizeWords = 300`,
`maxPages = 400`, `batchSize = 8`. -/
noncomputable def processFile (oc : Oracles) (question : List Char) (f : ReqFile) :
    Except (List Char) DocRes :=
  match oc.extractText f.storedName with
  | Except.error _ => Except.error f.originalname
  | Except.ok text =>
    match vectorSearchForPdfBuffer text question oc.embedBatch oc.embedSingle 5 300 400 8 with
    | Except.error _ => Except.error f.originalname
    | Except.ok tp => Except.ok { filename := f.originalname, topPages := tp }

/-- Model of the sequential per-file loop: the first failing file ends the
request with its name; otherwise the per-document results are collected in
submission order. -/
noncomputable def processFiles (oc : Oracles) (question : List Char) :
    List ReqFile → Except (List Char) (List DocRes)
  | [] => Except.ok []
  | f :: rest =>
    match processFile oc question f with
    | Except.error n => Except.error n
    | Except.ok d =>
      match processFiles oc question rest with
      | Except.error n => Except.error n
      | Except.ok ds => Except.ok (d :: ds)

/-- The `sources` entry built from one per-document result. -/
def docSource (d : DocRes) : SourceEntry :=
  { filename := d.filename, pages := d.topPages.map fun p => (p.pageNumber, p.score) }

/-- The condition under which the route mints a fresh upload id and creates
a session directory: `allFiles.length > 0 && !uploadId`. -/
def mintedOn (req : AskRequest) : Bool :=
  decide (0 < req.files.length) && (truthyField req.uploadIdField).isNone

/-- Session storage after the request: in the minting branch the route makes
the directory `uploads/<uploadId>` and moves every multer-saved file into it;
otherwise the storage is untouched. -/
def sessionsAfter (st : Sessions) (freshId : List Char) (req : AskRequest) : Sessions :=
  if mintedOn req then (freshId, req.files.map (·.storedName)) :: st else st

/-- The `uploadId` variable as the route leaves it before responding. -/
def uploadIdAfter (freshId : List Char) (req : AskRequest) : Option (List Char) :=
  if mintedOn req then some freshId else truthyField req.uploadIdField

/-- Model of the effective-files block: on a follow-up (no new files, client
id supplied) the stored files of that session directory are enumerated,
keeping only names ending in `.pdf` case-insensitively and reconstructing a
best-effort original name by stripping the timestamp prefix; a missing
directory resolves to no files; otherwise the files of this upload are used. -/
def resolveFiles (st1 : Sessions) (req : AskRequest) : List ReqFile :=
  match truthyField req.uploadIdField with
  | some uid =>
    if req.files.length = 0 then
      match lookupSession st1 uid with
      | some names =>
        (names.filter endsWithPdfCI).map fun n =>
          { originalname := stripStamp n, storedName := n }
      | none => []
    else req.files
  | none => req.files

/-- Model of the `/ask` route handler.  `freshId` stands for the value
`crypto.randomUUID()` would produce on this request.  The returned state is
the session storage after the request: a new entry is prepended exactly when
the route creates a session directory and moves the uploaded files into it. -/
noncomputable def askHandler (st : Sessions) (freshId : List Char) (oc : Oracles)
    (req : AskRequest) : Response × Sessions :=
  if (resolveFiles (sessionsAfter st freshId req) req).length = 0 then
    (Response.err 400 ErrMsg.noPdfsOrUploadId, sessionsAfter st freshId req)
  else if jsTruthy req.questionField = false then
    (Response.err 400 ErrMsg.noQuestion, sessionsAfter st freshId req)
  else
    match processFiles oc (req.questionField.getD [])
        (resolveFiles (sessionsAfter st freshId req) req) with
    | Except.error n => (Response.err 500 (ErrMsg.fileFailed n), sessionsAfter st freshId req)
    | Except.ok perDoc =>
      match oc.llama (req.questionField.getD []) with
      | Except.error _ => (Response.err 500 ErrMsg.llmFailed, sessionsAfter st freshId req)
      | Except.ok answer =>
        (Response.ok answer (perDoc.map docSource) (uploadIdAfter freshId req),
          sessionsAfter st freshId req)

/-! ## Lemmas about splitting and words -/

theorem splitCh_ne_nil (p : Char → Bool) (l : List Char) : splitCh p l ≠ [] := by
  induction l with
  | nil => simp [splitCh]
  | cons c cs ih =>
    simp only [splitCh]
    by_cases h : p c
    · simp [h]
    · simp only [h, if_neg]
      cases hs : splitCh p cs with
      | nil => simp
      | cons w ws => simp

theorem splitCh_mem_sub (p : Char → Bool) (l : List Char) :
    ∀ w ∈ splitCh p l, ∀ c ∈ w, c ∈ l := by
  induction l with
  | nil =>
    intro w hw c hc
    simp [splitCh] at hw
    subst hw
    simp at hc
  | cons a as ih =>
    intro w hw c hc
    simp only [splitCh] at hw
    by_cases h : p a
    · simp only [h, if_pos, List.mem_cons] at hw
      rcases hw with rfl | hw
      · simp at hc
      · exact List.mem_cons_of_mem a (ih w hw c hc)
    · simp only [h, if_neg, Bool.false_eq_true, not_false_iff] at hw
      cases hs : splitCh p as with
      | nil => exact absurd hs (splitCh_ne_nil p as)
      | cons v vs =>
        rw [hs] at hw
        rcases List.mem_cons.mp hw with rfl | hw2
        · rcases List.mem_cons.mp hc with rfl | hc2
          · exact List.mem_cons_self c as
          · exact List.mem_cons_of_mem a (ih v (hs ▸ List.mem_cons_self v vs) c hc2)
        · exact List.mem_cons_of_mem a (ih w (hs ▸ List.mem_cons_of_mem v hw2) c hc)

theorem splitCh_not_p (p : Char → Bool) (l : List Char) :
    ∀ w ∈ splitCh p l, ∀ c ∈ w, p c = false := by
  induction l with
  | nil =>
    intro w hw c hc
    simp [splitCh] at hw
    subst hw
    simp at hc
  | cons a as ih =>
    intro w hw c hc
    simp only [splitCh] at hw
    by_cases h : p a
    · simp only [h, if_pos, List.mem_cons] at hw
      rcases hw with rfl | hw
      · simp at hc
      · exact ih w hw c hc
    · simp only [h, if_neg, Bool.false_eq_true, not_false_iff] at hw
      cases hs : splitCh p as with
      | nil => exact absurd hs (splitCh_ne_nil p as)
      | cons v vs =>
        rw [hs] at hw
        rcases List.mem_cons.mp hw with rfl | hw2
        · rcases List.mem_cons.mp hc with rfl | hc2
          · simpa using h
          · exact ih v (hs ▸ List.mem_cons_self v vs) c hc2
        · exact ih w (hs ▸ List.mem_cons_of_mem v hw2) c hc

theorem jsTrim_allSpace (s : List Char) (h : ∀ c ∈ s, isJsSpace c = true) :
    jsTrim s = [] := by
  unfold jsTrim
  have h1 : s.dropWhile isJsSpace = [] := List.dropWhile_eq_nil_iff.mpr h
  rw [h1]
  simp

theorem jsWordsL_allSpace (s : List Char) (h : ∀ c ∈ s, isJsSpace c = true) :
    jsWordsL s = [] := by
  unfold jsWordsL
  apply List.filter_eq_nil_iff.mpr
  intro w hw
  simp only [ne_eq, decide_not, Bool.not_eq_true', decide_eq_false_iff_not, not_not]
  cases w with
  | nil => rfl
  | cons c cs =>
    have hc := splitCh_not_p isJsSpace s _ hw c (List.mem_cons_self c cs)
    have hcm := splitCh_mem_sub isJsSpace s _ hw c (List.mem_cons_self c cs)
    rw [h c hcm] at hc
    cases hc

theorem chunkWordsGo_nil (csw b : ℕ) : chunkWordsGo csw b [] = [] := by
  cases b with
  | zero => rfl
  | succ n => cases n <;> rfl

/-! ## Claim C8 -/

/-- C8: for every empty or whitespace-only extracted text (and a positive
page cap, the default being 400), segmentation yields exactly one unit whose
text is the original text; so every document yields at least one unit. -/
theorem c8_whitespace_singleton (text : List Char) (csw mp : ℕ) (hmp : 1 ≤ mp)
    (hsp : ∀ c ∈ text, isJsSpace c = true) :
    splitPages text csw mp = [text] := by
  have hraw : rawPages text csw mp = [] := by
    unfold rawPages
    by_cases hff : text.contains '\x0c'
    · rw [if_pos hff]
      apply List.filter_eq_nil_iff.mpr
      intro w hw
      simp only [List.mem_map] at hw
      obtain ⟨v, hv, rfl⟩ := hw
      have : jsTrim v = [] := by
        apply jsTrim_allSpace
        intro c hc
        exact hsp c (splitCh_mem_sub _ text v hv c hc)
      simp [this]
    · rw [if_neg hff, jsWordsL_allSpace text hsp, chunkWordsGo_nil]
  have h1 : ¬ mp < 1 := by omega
  unfold splitPages withFallback capPages
  rw [hraw, if_pos rfl]
  simp [h1]

/-- Closed instance of C8 at the route defaults: the empty text and a
whitespace-plus-form-feed text each segment to exactly one unit. -/
theorem c8_whitespace_singleton_witness :
    splitPages [] 300 400 = [[]] ∧
    splitPages [' ', '\x0c', '\t'] 300 400 = [[' ', '\x0c', '\t']] :=
  ⟨c8_whitespace_singleton [] 300 400 (by decide) (by decide),
   c8_whitespace_singleton [' ', '\x0c', '\t'] 300 400 (by decide) (by decide)⟩

/-! ## Word-chunk counting -/

theorem ceilDiv_shift (n csw : ℕ) (hc : 0 < csw) (hn : 0 < n) :
    (n + csw - 1) / csw = (n - 1) / csw + 1 := by
  have h : n + csw - 1 = (n - 1) + csw := by omega
  rw [h, Nat.add_div_right _ hc]

theorem chunkWordsGo_length (csw : ℕ) (hcsw : 0 < csw) :
    ∀ (b : ℕ) (ws : List (List Char)), ws ≠ [] →
      (chunkWordsGo csw b ws).length = min ((ws.length - 1) / csw + 1) (max b 1)
  | 0, [], h => absurd rfl h
  | 1, [], h => absurd rfl h
  | _ + 2, [], h => absurd rfl h
  | 0, w :: ws', _ => by
    have h0 : (chunkWordsGo csw 0 (w :: ws')).length = 1 := rfl
    rw [h0]
    generalize ((w :: ws').length - 1) / csw = q
    omega
  | 1, w :: ws', _ => by
    have h0 : (chunkWordsGo csw 1 (w :: ws')).length = 1 := rfl
    rw [h0]
    generalize ((w :: ws').length - 1) / csw = q
    omega
  | b + 2, w :: ws', _ => by
    simp only [chunkWordsGo, List.length_cons]
    by_cases hd : (w :: ws').drop csw = []
    · rw [hd, chunkWordsGo_nil]
      have hlen : (w :: ws').length ≤ csw := List.drop_eq_nil_iff.mp hd
      have hq : ((w :: ws').length - 1) / csw = 0 := by
        apply Nat.div_eq_of_lt
        simp only [List.length_cons] at hlen ⊢
        omega
      simp only [List.length_cons] at hq
      rw [hq]
      simp
    · rw [chunkWordsGo_length csw hcsw (b + 1) _ hd]
      have hdl : ((w :: ws').drop csw).length = (w :: ws').length - csw := by
        simp
      have hlen : csw < (w :: ws').length := by
        by_contra hcon
        exact hd (List.drop_eq_nil_iff.mpr (by omega))
      rw [hdl]
      have hsplit : ((w :: ws').length - 1) / csw = ((w :: ws').length - csw - 1) / csw + 1 := by
        have h1 : (w :: ws').length - 1 = ((w :: ws').length - csw - 1) + csw := by omega
        rw [h1, Nat.add_div_right _ hcsw]
      simp only [List.length_cons] at hsplit hlen ⊢
      rw [hsplit]
      generalize ((w :: ws').length - csw - 1) / csw = q at *
      simp only [List.length_cons] at *
      omega

theorem chunkWordsGo_getElem (csw : ℕ) :
    ∀ (b : ℕ) (ws : List (List Char)) (j : ℕ), j < (chunkWordsGo csw b ws).length →
      (chunkWordsGo csw b ws)[j]? = some (joinSpace ((ws.drop (j * csw)).take csw))
  | b, [], j, hj => absurd hj (by simp [chunkWordsGo_nil])
  | 0, w :: ws', j, hj => by
    simp only [chunkWordsGo, List.length_cons, List.length_nil] at hj
    have hj0 : j = 0 := by omega
    subst hj0
    simp [chunkWordsGo]
  | 1, w :: ws', j, hj => by
    simp only [chunkWordsGo, List.length_cons, List.length_nil] at hj
    have hj0 : j = 0 := by omega
    subst hj0
    simp [chunkWordsGo]
  | b + 2, w :: ws', j, hj => by
    cases j with
    | zero => simp [chunkWordsGo]
    | succ j' =>
      simp only [chunkWordsGo, List.length_cons] at hj
      have hj' : j' < (chunkWordsGo csw (b + 1) ((w :: ws').drop csw)).length := by
        omega
      show (chunkWordsGo csw (b + 2) (w :: ws'))[j' + 1]? = _
      have hstep : (chunkWordsGo csw (b + 2) (w :: ws'))[j' + 1]? =
          (chunkWordsGo csw (b + 1) ((w :: ws').drop csw))[j']? := by
        simp [chunkWordsGo]
      rw [hstep, chunkWordsGo_getElem csw (b + 1) _ j' hj']
      rw [List.drop_drop]
      congr 3
      ring_nf

/-! ## Claim C7 -/

/-- C7: for every extracted text with no form feed and at least one word, and
a positive chunk size (the default being 300 words), segmentation produces
exactly the ceiling of wordCount over chunkSizeWords units, capped at
maxPages (default 400), and the j-th unit is the join of the j-th
chunk-size-words block of the word list, so units are in original word
order. -/
theorem c7_chunk_count (text : List Char) (csw mp : ℕ) (hcsw : 0 < csw)
    (hff : text.contains '\x0c' = false) (hw : jsWordsL text ≠ []) :
    (splitPages text csw mp).length = min (((jsWordsL text).length + csw - 1) / csw) mp ∧
    ∀ j : ℕ, j < (splitPages text csw mp).length →
      (splitPages text csw mp)[j]? =
        some (joinSpace (((jsWordsL text).drop (j * csw)).take csw)) := by
  have hffp : ¬ text.contains '\x0c' = true := by
    intro h
    rw [h] at hff
    cases hff
  have hn : 0 < (jsWordsL text).length := List.length_pos.mpr hw
  have hL := chunkWordsGo_length csw hcsw mp (jsWordsL text) hw
  have hCne : chunkWordsGo csw mp (jsWordsL text) ≠ [] := by
    intro hcon
    rw [hcon] at hL
    simp only [List.length_nil] at hL
    generalize ((jsWordsL text).length - 1) / csw = q at hL
    omega
  have hceil : ((jsWordsL text).length + csw - 1) / csw = ((jsWordsL text).length - 1) / csw + 1 :=
    ceilDiv_shift _ _ hcsw hn
  have hraw : rawPages text csw mp = chunkWordsGo csw mp (jsWordsL text) := by
    unfold rawPages
    rw [if_neg hffp]
  have hsp : splitPages text csw mp =
      (if mp < (chunkWordsGo csw mp (jsWordsL text)).length then
        (chunkWordsGo csw mp (jsWordsL text)).take mp
      else chunkWordsGo csw mp (jsWordsL text)) := by
    unfold splitPages withFallback capPages
    rw [hraw, if_neg hCne]
  constructor
  · rw [hsp, hceil]
    by_cases hc : mp < (chunkWordsGo csw mp (jsWordsL text)).length
    · rw [if_pos hc]
      rw [List.length_take]
      rw [hL] at hc ⊢
      generalize ((jsWordsL text).length - 1) / csw = q at *
      omega
    · rw [if_neg hc, hL]
      rw [hL] at hc
      generalize ((jsWordsL text).length - 1) / csw = q at *
      omega
  · intro j hj
    rw [hsp] at hj ⊢
    by_cases hc : mp < (chunkWordsGo csw mp (jsWordsL text)).length
    · rw [if_pos hc] at hj ⊢
      rw [List.length_take] at hj
      rw [List.getElem?_take]
      have hjmp : j < mp := by omega
      rw [if_pos hjmp]
      exact chunkWordsGo_getElem csw mp (jsWordsL text) j (by omega)
    · rw [if_neg hc] at hj ⊢
      exact chunkWordsGo_getElem csw mp (jsWordsL text) j hj

/-- Closed instance of C7: the three-word text "a b c" with chunk size 2 and
cap 400 yields two units, the first joining the first two words. -/
theorem c7_chunk_count_witness :
    (splitPages ['a', ' ', 'b', ' ', 'c'] 2 400).length =
      min (((jsWordsL ['a', ' ', 'b', ' ', 'c']).length + 2 - 1) / 2) 400 ∧
    ∀ j : ℕ, j < (splitPages ['a', ' ', 'b', ' ', 'c'] 2 400).length →
      (splitPages ['a', ' ', 'b', ' ', 'c'] 2 400)[j]? =
        some (joinSpace (((jsWordsL ['a', ' ', 'b', ' ', 'c']).drop (j * 2)).take 2)) :=
  c7_chunk_count ['a', ' ', 'b', ' ', 'c'] 2 400 (by decide) (by decide) (by decide)

/-! ## Claim C6 -/

theorem dotSum_self_nonneg (a : List ℝ) : 0 ≤ dotSum a a := by
  unfold dotSum
  rw [List.zipWith_same]
  apply List.sum_nonneg
  intro x hx
  simp only [List.mem_map] at hx
  obtain ⟨y, _, rfl⟩ := hx
  exact mul_self_nonneg y

/-- C6: cosine similarity is total: it evaluates to `0` when the two lengths
differ and when either vector has zero norm, and in the remaining case the
divisor is provably nonzero, so the division is never by zero; in the
scoring step, a unit whose embedding length disagrees with the question
vector length scores `0`. -/
theorem c6_cosine_totality :
    (∀ a b : List ℝ,
      (a.length ≠ b.length → cosineSimilarity a b = 0) ∧
      (dotSum a a = 0 ∨ dotSum b b = 0 → cosineSimilarity a b = 0) ∧
      (a.length = b.length → dotSum a a ≠ 0 → dotSum b b ≠ 0 →
        Real.sqrt (dotSum a a) * Real.sqrt (dotSum b b) ≠ 0 ∧
        cosineSimilarity a b =
          dotSum a b / (Real.sqrt (dotSum a a) * Real.sqrt (dotSum b b)))) ∧
    (∀ (qEmb : List ℝ) (pe : List (List ℝ)) (idx : ℕ) (texts : List (List Char)),
      ∀ u ∈ scoreUnitsFrom qEmb pe idx texts, ∀ emb, pe[u.pageNumber - 1]? = some emb →
        emb.length ≠ qEmb.length → u.score = 0) := by
  constructor
  · intro a b
    refine ⟨?_, ?_, ?_⟩
    · intro h
      unfold cosineSimilarity
      rw [if_pos h]
    · intro h
      unfold cosineSimilarity
      by_cases hl : a.length ≠ b.length
      · rw [if_pos hl]
      · rw [if_neg hl, if_pos h]
    · intro hl hna hnb
      have hna' : 0 < dotSum a a := lt_of_le_of_ne (dotSum_self_nonneg a) (Ne.symm hna)
      have hnb' : 0 < dotSum b b := lt_of_le_of_ne (dotSum_self_nonneg b) (Ne.symm hnb)
      have h1 : Real.sqrt (dotSum a a) ≠ 0 := (Real.sqrt_pos.mpr hna').ne'
      have h2 : Real.sqrt (dotSum b b) ≠ 0 := (Real.sqrt_pos.mpr hnb').ne'
      refine ⟨mul_ne_zero h1 h2, ?_⟩
      unfold cosineSimilarity
      rw [if_neg (not_ne_iff.mpr hl), if_neg (by push_neg; exact ⟨hna, hnb⟩)]
  · intro qEmb pe idx texts
    induction texts generalizing idx with
    | nil =>
      intro u hu
      simp [scoreUnitsFrom] at hu
    | cons t ts ih =>
      intro u hu emb hemb hne
      simp only [scoreUnitsFrom, List.mem_cons] at hu
      rcases hu with rfl | hu
      · simp only [Nat.add_sub_cancel] at hemb
        simp only [hemb]
        rw [if_neg hne]
      · exact ih (idx + 1) u hu emb hemb hne

/-- Closed instance of C6: a length-mismatched pair and a zero-norm pair
both score `0`. -/
theorem c6_cosine_totality_witness :
    cosineSimilarity [(1 : ℝ), 2] [3] = 0 ∧ cosineSimilarity [(0 : ℝ)] [5] = 0 :=
  ⟨(c6_cosine_totality.1 [(1 : ℝ), 2] [3]).1 (by simp),
   (c6_cosine_totality.1 [(0 : ℝ)] [5]).2.1 (Or.inl (by norm_num [dotSum]))⟩

/-! ## Claim C5 -/

theorem scoreUnitsFrom_length (qEmb : List ℝ) (pe : List (List ℝ)) :
    ∀ (idx : ℕ) (texts : List (List Char)),
      (scoreUnitsFrom qEmb pe idx texts).length = texts.length := by
  intro idx texts
  induction texts generalizing idx with
  | nil => rfl
  | cons t ts ih => simp [scoreUnitsFrom, ih]

theorem scoreUnitsFrom_pageNumber_lt (qEmb : List ℝ) (pe : List (List ℝ)) :
    ∀ (idx : ℕ) (texts : List (List Char)),
      ∀ u ∈ scoreUnitsFrom qEmb pe idx texts, idx < u.pageNumber := by
  intro idx texts
  induction texts generalizing idx with
  | nil =>
    intro u hu
    simp [scoreUnitsFrom] at hu
  | cons t ts ih =>
    intro u hu
    simp only [scoreUnitsFrom, List.mem_cons] at hu
    rcases hu with rfl | hu
    · simp
    · have := ih (idx + 1) u hu
      omega

theorem scoreUnitsFrom_pairwise (qEmb : List ℝ) (pe : List (List ℝ)) :
    ∀ (idx : ℕ) (texts : List (List Char)),
      (scoreUnitsFrom qEmb pe idx texts).Pairwise (fun a b => a.pageNumber < b.pageNumber) := by
  intro idx texts
  induction texts generalizing idx with
  | nil => simp [scoreUnitsFrom]
  | cons t ts ih =>
    simp only [scoreUnitsFrom]
    apply List.Pairwise.cons
    · intro u hu
      have := scoreUnitsFrom_pageNumber_lt qEmb pe (idx + 1) ts u hu
      show idx + 1 < u.pageNumber
      omega
    · exact ih (idx + 1)

theorem insertDesc_length (x : Scored) (l : List Scored) :
    (insertDesc x l).length = l.length + 1 := by
  induction l with
  | nil => rfl
  | cons y ys ih =>
    unfold insertDesc
    by_cases h : y.score ≤ x.score
    · rw [if_pos h]
      simp
    · rw [if_neg h]
      simp [ih]

theorem insertDesc_mem (x z : Scored) (l : List Scored) :
    z ∈ insertDesc x l ↔ z = x ∨ z ∈ l := by
  induction l with
  | nil => simp [insertDesc]
  | cons y ys ih =>
    unfold insertDesc
    by_cases h : y.score ≤ x.score
    · rw [if_pos h]
      simp only [List.mem_cons]
    · rw [if_neg h]
      simp only [List.mem_cons, ih]
      tauto

theorem sortDesc_length (l : List Scored) : (sortDesc l).length = l.length := by
  induction l with
  | nil => rfl
  | cons x xs ih =>
    unfold sortDesc
    rw [insertDesc_length, ih]
    simp

theorem sortDesc_mem (z : Scored) (l : List Scored) : z ∈ sortDesc l ↔ z ∈ l := by
  induction l with
  | nil => simp [sortDesc]
  | cons x xs ih =>
    unfold sortDesc
    rw [insertDesc_mem]
    simp only [List.mem_cons, ih]

theorem insertDesc_pairwise (x : Scored) (l : List Scored)
    (hP : ∀ z ∈ l, x.pageNumber < z.pageNumber)
    (hl : l.Pairwise rankRel) : (insertDesc x l).Pairwise rankRel := by
  induction l with
  | nil => simp [insertDesc]
  | cons y ys ih =>
    rw [List.pairwise_cons] at hl
    obtain ⟨hy, hys⟩ := hl
    unfold insertDesc
    by_cases h : y.score ≤ x.score
    · rw [if_pos h]
      apply List.Pairwise.cons
      · intro z hz
        rcases List.mem_cons.mp hz with rfl | hz2
        · rcases lt_or_eq_of_le h with hlt | heq
          · exact Or.inl hlt
          · exact Or.inr ⟨heq, hP z (List.mem_cons_self z ys)⟩
        · have hyz := hy z hz2
          have hzle : z.score ≤ y.score := by
            rcases hyz with h1 | ⟨h1, _⟩
            · exact le_of_lt h1
            · exact le_of_eq h1
          rcases lt_or_eq_of_le (le_trans hzle h) with hlt | heq
          · exact Or.inl hlt
          · exact Or.inr ⟨heq, hP z (List.mem_cons_of_mem y hz2)⟩
      · exact List.Pairwise.cons hy hys
    · rw [if_neg h]
      apply List.Pairwise.cons
      · intro z hz
        rcases (insertDesc_mem x z ys).mp hz with rfl | hz2
        · exact Or.inl (not_le.mp h)
        · exact hy z hz2
      · exact ih (fun z hz => hP z (List.mem_cons_of_mem y hz)) hys

theorem sortDesc_pairwise (l : List Scored)
    (h : l.Pairwise (fun a b => a.pageNumber < b.pageNumber)) :
    (sortDesc l).Pairwise rankRel := by
  induction l with
  | nil => simp [sortDesc]
  | cons x xs ih =>
    rw [List.pairwise_cons] at h
    obtain ⟨hx, hxs⟩ := h
    unfold sortDesc
    apply insertDesc_pairwise
    · intro z hz
      exact hx z ((sortDesc_mem z xs).mp hz)
    · exact ih hxs

/-- C5: for every unit list, unit-vector list, query vector and topK of at
least 1, ranking returns exactly the minimum of topK and the number of units,
each returned entry is one of the scored units, and the output is ordered by
strictly descending score with equal-score units in ascending original page
order (the stable tie-break). -/
theorem c5_rank_ordering (pages : List (List Char)) (pe : List (List ℝ)) (qEmb : List ℝ)
    (topK : ℕ) (_htk : 1 ≤ topK) :
    (rank pages pe qEmb topK).length = min topK pages.length ∧
    (rank pages pe qEmb topK).Pairwise rankRel ∧
    ∀ u ∈ rank pages pe qEmb topK, u ∈ scoreUnitsFrom qEmb pe 0 pages := by
  have hslen : (sortDesc (scoreUnitsFrom qEmb pe 0 pages)).length = pages.length := by
    rw [sortDesc_length, scoreUnitsFrom_length]
  refine ⟨?_, ?_, ?_⟩
  · unfold rank
    rw [List.length_take, hslen]
    omega
  · unfold rank
    exact (sortDesc_pairwise _ (scoreUnitsFrom_pairwise qEmb pe 0 pages)).sublist
      (List.take_sublist _ _)
  · intro u hu
    unfold rank at hu
    exact (sortDesc_mem u _).mp ((List.take_sublist _ _).subset hu)

/-- Closed instance of C5 at three units, two unit vectors and topK 2. -/
theorem c5_rank_ordering_witness :
    (rank [['a'], ['b'], ['c']] [[1], [2]] [(1 : ℝ)] 2).length = min 2 3 ∧
    (rank [['a'], ['b'], ['c']] [[1], [2]] [(1 : ℝ)] 2).Pairwise rankRel ∧
    ∀ u ∈ rank [['a'], ['b'], ['c']] [[1], [2]] [(1 : ℝ)] 2,
      u ∈ scoreUnitsFrom [(1 : ℝ)] [[1], [2]] 0 [['a'], ['b'], ['c']] := by
  have h := c5_rank_ordering [['a'], ['b'], ['c']] [[1], [2]] [(1 : ℝ)] 2 (by decide)
  simpa using h

/-! ## Route handler basics -/

/-- Concrete oracle set used by closed instances: extraction yields the empty
text (one page after segmentation, so sorting never compares two scores),
batch embedding echoes one empty vector per input, the question embeds to a
one-entry vector (so the length guard scores every page `0`), completion
returns the empty answer. -/
noncomputable def ocZero : Oracles :=
  { extractText := fun _ => Except.ok []
    embedBatch := fun b => Except.ok (b.map fun _ => [])
    embedSingle := fun _ => Except.ok [(0 : ℝ)]
    llama := fun _ => Except.ok [] }

theorem askHandler_state (st : Sessions) (freshId : List Char) (oc : Oracles)
    (req : AskRequest) : (askHandler st freshId oc req).2 = sessionsAfter st freshId req := by
  unfold askHandler
  split
  · rfl
  · split
    · rfl
    · split
      · rfl
      · split
        · rfl
        · rfl

theorem resolveFiles_of_files_ne (st1 : Sessions) (req : AskRequest)
    (hf : req.files ≠ []) : resolveFiles st1 req = req.files := by
  unfold resolveFiles
  have hlen : ¬ req.files.length = 0 := by
    simpa using hf
  cases truthyField req.uploadIdField with
  | none => rfl
  | some uid => simp [hlen]

theorem askHandler_ok_uploadId (st : Sessions) (freshId : List Char) (oc : Oracles)
    (req : AskRequest) (a : List Char) (srcs : List SourceEntry) (u : Option (List Char)) :
    (askHandler st freshId oc req).1 = Response.ok a srcs u → u = uploadIdAfter freshId req := by
  unfold askHandler
  split
  · intro h
    exact Response.noConfusion h
  · split
    · intro h
      exact Response.noConfusion h
    · split
      · intro h
        exact Response.noConfusion h
      · split
        · intro h
          exact Response.noConfusion h
        · intro h
          injection h with h1 h2 h3
          exact h3.symm

/-! ## Claim C1 -/

/-- C1 fails on the code: a request carrying one file and the empty-string
question is answered with the 400 No-question error, not with a substituted
fallback question. -/
theorem c1_counterexample :
    (askHandler [] ['s'] ocZero
      ⟨[⟨['a'], ['1', '_', 'a']⟩], none, some []⟩).1 = Response.err 400 ErrMsg.noQuestion := by
  rfl

/-- C1 amended: for every request that resolves at least one document —
whether it carries fresh files or is a file-less follow-up whose session id
resolves stored documents — but whose question field is absent or the empty
string, the route responds with the 400 No-question error; no fallback
question is substituted by the server (the generic fallback lives only in
the browser client, which replaces an empty question before submitting the
request). -/
theorem c1_amended (st : Sessions) (freshId : List Char) (oc : Oracles) (req : AskRequest)
    (hf : resolveFiles (sessionsAfter st freshId req) req ≠ [])
    (hq : jsTruthy req.questionField = false) :
    (askHandler st freshId oc req).1 = Response.err 400 ErrMsg.noQuestion := by
  unfold askHandler
  have hlen : ¬ (resolveFiles (sessionsAfter st freshId req) req).length = 0 := by
    simpa using hf
  rw [if_neg hlen, hq]
  simp

/-- Closed instances of the amended C1: a file together with an absent
question field, and a file-less follow-up with a stored pdf and an
empty-string question, each draw the No-question error. -/
theorem c1_amended_witness :
    (askHandler [] ['t'] ocZero
      ⟨[⟨['b'], ['2', '_', 'b']⟩], none, none⟩).1 = Response.err 400 ErrMsg.noQuestion ∧
    (askHandler [(['i'], [['6', '_', 'a', '.', 'p', 'd', 'f']])] ['t'] ocZero
      ⟨[], some ['i'], some []⟩).1 = Response.err 400 ErrMsg.noQuestion :=
  ⟨c1_amended [] ['t'] ocZero ⟨[⟨['b'], ['2', '_', 'b']⟩], none, none⟩ (by decide) rfl,
   c1_amended [(['i'], [['6', '_', 'a', '.', 'p', 'd', 'f']])] ['t'] ocZero
     ⟨[], some ['i'], some []⟩ (by decide) rfl⟩

/-! ## Claim C2 -/

theorem mintedOn_files_ne (req : AskRequest) (h : mintedOn req = true) : req.files ≠ [] := by
  unfold mintedOn at h
  rcases Bool.and_eq_true_iff.mp h with ⟨h1, _⟩
  intro hcon
  rw [hcon] at h1
  simp at h1

theorem askHandler_resp_ne_noPdfs (st : Sessions) (freshId : List Char) (oc : Oracles)
    (req : AskRequest) (hf : req.files ≠ []) :
    (askHandler st freshId oc req).1 ≠ Response.err 400 ErrMsg.noPdfsOrUploadId := by
  unfold askHandler
  rw [resolveFiles_of_files_ne _ _ hf]
  have hlen : ¬ req.files.length = 0 := by
    simpa using hf
  rw [if_neg hlen]
  split
  · intro h
    injection h with h1 h2
    exact ErrMsg.noConfusion h2
  · split
    · intro h
      injection h with h1 h2
      exact absurd h1 (by decide)
    · split
      · intro h
        injection h with h1 h2
        exact absurd h1 (by decide)
      · intro h
        exact Response.noConfusion h

/-- C2 fails on the code: a request with one file, no uploadId and no
question is rejected with the 400 No-question input-shape error, yet the
session directory has already been created and the file moved into it (the
returned storage gained the new session entry). -/
theorem c2_counterexample :
    askHandler [] ['s'] ocZero ⟨[⟨['a'], ['1', '_', 'a']⟩], none, none⟩ =
      (Response.err 400 ErrMsg.noQuestion, [(['s'], [['1', '_', 'a']])]) := by
  rfl

/-- C2 amended: a request failing with the missing-input 400 leaves the
session storage unchanged, but a request that carries files and no truthy
client uploadId always creates the session directory and moves the files
into it before the question check, so a No-question 400 in that case occurs
after those side effects. -/
theorem c2_amended (st : Sessions) (freshId : List Char) (oc : Oracles) (req : AskRequest) :
    ((askHandler st freshId oc req).1 = Response.err 400 ErrMsg.noPdfsOrUploadId →
      (askHandler st freshId oc req).2 = st) ∧
    (req.files ≠ [] → truthyField req.uploadIdField = none →
      (askHandler st freshId oc req).2 = (freshId, req.files.map (·.storedName)) :: st) := by
  constructor
  · intro hresp
    rw [askHandler_state]
    unfold sessionsAfter
    by_cases hm : mintedOn req = true
    · exact absurd hresp (askHandler_resp_ne_noPdfs st freshId oc req (mintedOn_files_ne req hm))
    · simp [hm]
  · intro hf hid
    rw [askHandler_state]
    unfold sessionsAfter mintedOn
    have h1 : (0 < req.files.length) := List.length_pos.mpr hf
    simp [hid, h1]

/-- Closed instance of the amended C2: a no-input request leaves the storage
empty, while a files-without-question request stores the file under the
fresh session id before the 400 response. -/
theorem c2_amended_witness :
    (askHandler [] ['u'] ocZero ⟨[], none, none⟩).2 = [] ∧
    (askHandler [] ['u'] ocZero ⟨[⟨['c'], ['3', '_', 'c']⟩], none, none⟩).2 =
      (['u'], [['3', '_', 'c']]) :: [] :=
  ⟨(c2_amended [] ['u'] ocZero ⟨[], none, none⟩).1 (by rfl),
   (c2_amended [] ['u'] ocZero ⟨[⟨['c'], ['3', '_', 'c']⟩], none, none⟩).2 (by simp) rfl⟩

/-! ## Claim C3 -/

/-- C3 fails on the code: when the client supplies an uploadId alongside a
file, no fresh session id is minted.  The response echoes the client id and
the session storage is unchanged: the file is not moved into any session
directory. -/
theorem c3_counterexample :
    askHandler [] ['f'] ocZero ⟨[⟨['a'], ['1', '_', 'a']⟩], some ['o'], some ['q']⟩ =
      (Response.ok [] [⟨['a'], [(1, (0 : ℝ))]⟩] (some ['o']), []) := by
  rfl

/-- C3 amended: a fresh session id is minted only when the request carries
files and the client supplied no truthy uploadId, and then the files are
stored under the fresh id.  When the client supplies an uploadId alongside
files, the storage is untouched (nothing is written under the pre-existing
session id) and a successful response echoes the client id, not a fresh
one. -/
theorem c3_amended (st : Sessions) (freshId : List Char) (oc : Oracles) (req : AskRequest) :
    (req.files ≠ [] → truthyField req.uploadIdField = none →
      (askHandler st freshId oc req).2 = (freshId, req.files.map (·.storedName)) :: st ∧
      ∀ a srcs u, (askHandler st freshId oc req).1 = Response.ok a srcs u →
        u = some freshId) ∧
    (∀ uid, truthyField req.uploadIdField = some uid →
      (askHandler st freshId oc req).2 = st ∧
      ∀ a srcs u, (askHandler st freshId oc req).1 = Response.ok a srcs u →
        u = some uid) := by
  constructor
  · intro hf hid
    have hm : mintedOn req = true := by
      unfold mintedOn
      have h1 : (0 < req.files.length) := List.length_pos.mpr hf
      simp [hid, h1]
    constructor
    · rw [askHandler_state]
      unfold sessionsAfter
      rw [if_pos hm]
    · intro a srcs u hu
      rw [askHandler_ok_uploadId st freshId oc req a srcs u hu]
      unfold uploadIdAfter
      rw [if_pos hm]
  · intro uid hid
    have hm : mintedOn req = false := by
      unfold mintedOn
      simp [hid]
    constructor
    · rw [askHandler_state]
      unfold sessionsAfter
      simp [hm]
    · intro a srcs u hu
      rw [askHandler_ok_uploadId st freshId oc req a srcs u hu]
      unfold uploadIdAfter
      simp [hm, hid]

/-- Closed instance of the amended C3: the fresh-minting branch stores the
file under the fresh id, and the client-id branch leaves the storage
unchanged while echoing the client id. -/
theorem c3_amended_witness :
    (askHandler [] ['g'] ocZero ⟨[⟨['d'], ['4', '_', 'd']⟩], none, some ['q']⟩).2 =
      (['g'], [['4', '_', 'd']]) :: [] ∧
    (askHandler [] ['g'] ocZero ⟨[⟨['d'], ['4', '_', 'd']⟩], some ['w'], some ['q']⟩).2 = [] :=
  ⟨((c3_amended [] ['g'] ocZero ⟨[⟨['d'], ['4', '_', 'd']⟩], none, some ['q']⟩).1
      (by simp) rfl).1,
   ((c3_amended [] ['g'] ocZero ⟨[⟨['d'], ['4', '_', 'd']⟩], some ['w'], some ['q']⟩).2
      ['w'] rfl).1⟩

/-! ## Claim C9 -/

theorem processFiles_error_of_mem (oc : Oracles) (q : List Char) :
    ∀ fs : List ReqFile, (∃ f ∈ fs, ∃ n, processFile oc q f = Except.error n) →
      ∃ n, processFiles oc q fs = Except.error n := by
  intro fs
  induction fs with
  | nil =>
    rintro ⟨f, hf, _⟩
    simp at hf
  | cons g gs ih =>
    rintro ⟨f, hf, n, hn⟩
    unfold processFiles
    cases hpg : processFile oc q g with
    | error m => exact ⟨m, rfl⟩
    | ok d =>
      rcases List.mem_cons.mp hf with rfl | hf2
      · rw [hpg] at hn
        cases hn
      · obtain ⟨m, hm⟩ := ih ⟨f, hf2, n, hn⟩
        rw [hm]
        exact ⟨m, rfl⟩

theorem processFile_embed_error (textOf : List Char → List Char)
    (embedB : List (List Char) → Except Unit (List (List ℝ)))
    (embedS : List Char → Except Unit (List ℝ))
    (llamaO : List Char → Except Unit (List Char))
    (q : List Char) (hq : q ≠ []) (f : ReqFile) (e : EmbFail)
    (hemb : embedPagesInBatches embedB 8
      (splitPages (textOf f.storedName) 300 400) = Except.error e) :
    processFile ⟨fun s => Except.ok (textOf s), embedB, embedS, llamaO⟩ q f =
      Except.error f.originalname := by
  simp [processFile, vectorSearchForPdfBuffer, hq, hemb]

/-- C9: when the embedding capability fails on some batch of some document
(or a returned batch size disagrees with the input batch size, both being the
error cases of the embedding loop), the entire request fails with the 500
per-file error response: the response carries no answer and no sources, so no
partial answer is produced from batches or documents that succeeded. -/
theorem c9_embed_failure_500 (st : Sessions) (freshId : List Char)
    (textOf : List Char → List Char)
    (embedB : List (List Char) → Except Unit (List (List ℝ)))
    (embedS : List Char → Except Unit (List ℝ))
    (llamaO : List Char → Except Unit (List Char))
    (req : AskRequest) (f : ReqFile) (e : EmbFail)
    (hmem : f ∈ req.files)
    (hq : jsTruthy req.questionField = true)
    (hemb : embedPagesInBatches embedB 8
      (splitPages (textOf f.storedName) 300 400) = Except.error e) :
    ∃ n, (askHandler st freshId
        ⟨fun s => Except.ok (textOf s), embedB, embedS, llamaO⟩ req).1 =
      Response.err 500 (ErrMsg.fileFailed n) := by
  have hf : req.files ≠ [] := by
    intro hcon
    rw [hcon] at hmem
    simp at hmem
  have hqval : req.questionField.getD [] ≠ [] := by
    cases hqf : req.questionField with
    | none =>
      rw [hqf] at hq
      simp [jsTruthy] at hq
    | some s =>
      rw [hqf] at hq
      simp [jsTruthy] at hq
      simpa using hq
  have hlen : ¬ req.files.length = 0 := by
    simpa using hf
  obtain ⟨n, hn⟩ := processFiles_error_of_mem
      ⟨fun s => Except.ok (textOf s), embedB, embedS, llamaO⟩ (req.questionField.getD [])
      req.files
      ⟨f, hmem, f.originalname,
        processFile_embed_error textOf embedB embedS llamaO _ hqval f e hemb⟩
  refine ⟨n, ?_⟩
  unfold askHandler
  rw [resolveFiles_of_files_ne _ _ hf]
  rw [if_neg hlen, hq]
  rw [hn]
  simp

/-- Closed instance of C9: a provider that fails every batch turns a
one-file request into the 500 per-file error. -/
theorem c9_embed_failure_500_witness :
    ∃ n, (askHandler [] ['h']
        ⟨fun _ => Except.ok [], fun _ => Except.error (), fun _ => Except.ok [],
          fun _ => Except.ok []⟩
        ⟨[⟨['e'], ['5', '_', 'e']⟩], none, some ['q']⟩).1 =
      Response.err 500 (ErrMsg.fileFailed n) :=
  c9_embed_failure_500 [] ['h'] (fun _ => []) (fun _ => Except.error ())
    (fun _ => Except.ok []) (fun _ => Except.ok [])
    ⟨[⟨['e'], ['5', '_', 'e']⟩], none, some ['q']⟩ ⟨['e'], ['5', '_', 'e']⟩
    EmbFail.providerFailed (by simp) rfl (by rfl)

/-! ## Successful pipelines -/

/-- Oracle set in which every external capability succeeds: extraction and
embedding are arbitrary total functions, completion returns a fixed answer. -/
noncomputable def allOkOracles (textOf : List Char → List Char)
    (embOf : List Char → List ℝ) (qv : List ℝ) (ans : List Char) : Oracles :=
  { extractText := fun s => Except.ok (textOf s)
    embedBatch := fun b => Except.ok (b.map embOf)
    embedSingle := fun _ => Except.ok qv
    llama := fun _ => Except.ok ans }

theorem embedPagesGo_allOk (embOf : List Char → List ℝ) (bs : ℕ) (hbs : 0 < bs) :
    ∀ (fuel : ℕ) (pages : List (List Char)), pages.length ≤ fuel →
      embedPagesGo (fun b => Except.ok (b.map embOf)) bs fuel pages =
        Except.ok (pages.map embOf) := by
  intro fuel
  induction fuel with
  | zero =>
    intro pages hlen
    have hnil : pages = [] := List.length_eq_zero.mp (Nat.le_zero.mp hlen)
    subst hnil
    rfl
  | succ n ih =>
    intro pages hlen
    cases pages with
    | nil => rfl
    | cons p ps =>
      have hrec := ih ((p :: ps).drop bs) (by
        simp only [List.length_drop, List.length_cons] at hlen ⊢
        omega)
      simp only [embedPagesGo, List.length_map, ne_eq, not_true_eq_false, if_false, hrec]
      rw [← List.map_append, List.take_append_drop]

theorem processFile_allOk (textOf : List Char → List Char) (embOf : List Char → List ℝ)
    (qv : List ℝ) (ans : List Char) (q : List Char) (hq : q ≠ []) (f : ReqFile) :
    processFile (allOkOracles textOf embOf qv ans) q f =
      Except.ok ⟨f.originalname,
        rank (splitPages (textOf f.storedName) 300 400)
          ((splitPages (textOf f.storedName) 300 400).map embOf) qv 5⟩ := by
  have hemb := embedPagesGo_allOk embOf 8 (by omega)
    (splitPages (textOf f.storedName) 300 400).length
    (splitPages (textOf f.storedName) 300 400) le_rfl
  simp [processFile, allOkOracles, vectorSearchForPdfBuffer, embedPagesInBatches, hq, hemb]

theorem processFiles_allOk (textOf : List Char → List Char) (embOf : List Char → List ℝ)
    (qv : List ℝ) (ans : List Char) (q : List Char) (hq : q ≠ []) :
    ∀ fs : List ReqFile,
      processFiles (allOkOracles textOf embOf qv ans) q fs =
        Except.ok (fs.map fun f => ⟨f.originalname,
          rank (splitPages (textOf f.storedName) 300 400)
            ((splitPages (textOf f.storedName) 300 400).map embOf) qv 5⟩) := by
  intro fs
  induction fs with
  | nil => rfl
  | cons f fs ih =>
    simp [processFiles, processFile_allOk textOf embOf qv ans q hq, ih]

/-! ## Successful requests, generally -/

/-- The sources list of a successful response over the given effective
files, when every capability succeeds. -/
noncomputable def okSources (fs : List ReqFile) (textOf : List Char → List Char)
    (embOf : List Char → List ℝ) (qv : List ℝ) : List SourceEntry :=
  (fs.map fun f =>
    ({ filename := f.originalname,
       topPages := rank (splitPages (textOf f.storedName) 300 400)
         ((splitPages (textOf f.storedName) 300 400).map embOf) qv 5 } : DocRes)).map docSource

theorem okSources_names (fs : List ReqFile) (textOf : List Char → List Char)
    (embOf : List Char → List ℝ) (qv : List ℝ) :
    (okSources fs textOf embOf qv).map (·.filename) = fs.map (·.originalname) := by
  simp [okSources, docSource, List.map_map, Function.comp]

/-- A follow-up request (no files, a client id that resolves, at least one
stored pdf-named file, truthy question) succeeds with the filtered stored
files as documents and the client id echoed back. -/
theorem askHandler_followUp_ok (st : Sessions) (freshId uid q ans : List Char)
    (names : List (List Char)) (textOf : List Char → List Char)
    (embOf : List Char → List ℝ) (qv : List ℝ)
    (huid : uid ≠ []) (hq : q ≠ [])
    (hlook : lookupSession st uid = some names)
    (hpdf : names.filter endsWithPdfCI ≠ []) :
    askHandler st freshId (allOkOracles textOf embOf qv ans) ⟨[], some uid, some q⟩ =
      (Response.ok ans
        (okSources ((names.filter endsWithPdfCI).map fun n =>
          { originalname := stripStamp n, storedName := n }) textOf embOf qv)
        (some uid), st) := by
  have htr : truthyField (some uid) = some uid := by
    simp [truthyField, huid]
  have hm : mintedOn ⟨[], some uid, some q⟩ = false := by
    unfold mintedOn
    simp
  have hst : sessionsAfter st freshId ⟨[], some uid, some q⟩ = st := by
    unfold sessionsAfter
    simp [hm]
  have hres : resolveFiles st ⟨[], some uid, some q⟩ =
      (names.filter endsWithPdfCI).map fun n =>
        { originalname := stripStamp n, storedName := n } := by
    unfold resolveFiles
    rw [htr]
    simp [hlook]
  have hflen : ¬ ((names.filter endsWithPdfCI).map fun n =>
      ({ originalname := stripStamp n, storedName := n } : ReqFile)).length = 0 := by
    simp only [List.length_map]
    intro hcon
    exact hpdf (List.length_eq_zero.mp hcon)
  have hqt : jsTruthy (some q) = true := by
    simp [jsTruthy, hq]
  have hup : uploadIdAfter freshId ⟨[], some uid, some q⟩ = some uid := by
    unfold uploadIdAfter
    rw [htr]
    simp [hm]
  unfold askHandler
  rw [hst, hres, if_neg hflen, hqt]
  have hgd : ((⟨[], some uid, some q⟩ : AskRequest)).questionField.getD [] = q := rfl
  rw [hgd]
  rw [processFiles_allOk textOf embOf qv ans q hq]
  simp [allOkOracles, hup, okSources]

/-- A new-upload request (files present, no client id, truthy question)
succeeds: the files are stored under the fresh id, the response reports one
source per submitted file and returns the fresh id. -/
theorem askHandler_newUpload_ok (st : Sessions) (freshId q ans : List Char)
    (fs : List ReqFile) (textOf : List Char → List Char)
    (embOf : List Char → List ℝ) (qv : List ℝ)
    (hf : fs ≠ []) (hq : q ≠ []) :
    askHandler st freshId (allOkOracles textOf embOf qv ans) ⟨fs, none, some q⟩ =
      (Response.ok ans (okSources fs textOf embOf qv) (some freshId),
        (freshId, fs.map (·.storedName)) :: st) := by
  have hm : mintedOn ⟨fs, none, some q⟩ = true := by
    unfold mintedOn
    simp [truthyField, List.length_pos.mpr hf]
  have hst : sessionsAfter st freshId ⟨fs, none, some q⟩ =
      (freshId, fs.map (·.storedName)) :: st := by
    unfold sessionsAfter
    rw [if_pos hm]
  have hres : resolveFiles ((freshId, fs.map (·.storedName)) :: st) ⟨fs, none, some q⟩ = fs :=
    resolveFiles_of_files_ne _ _ hf
  have hflen : ¬ fs.length = 0 := by
    simpa using hf
  have hqt : jsTruthy (some q) = true := by
    simp [jsTruthy, hq]
  have hup : uploadIdAfter freshId ⟨fs, none, some q⟩ = some freshId := by
    unfold uploadIdAfter
    rw [if_pos hm]
  unfold askHandler
  rw [hst, hres, if_neg hflen, hqt]
  have hgd : ((⟨fs, none, some q⟩ : AskRequest)).questionField.getD [] = q := rfl
  rw [hgd]
  rw [processFiles_allOk textOf embOf qv ans q hq]
  simp [allOkOracles, hup, okSources]

/-! ## Claim C10 -/

/-- C10: when a follow-up request resolves an existing session, exactly the
stored files whose names end in `.pdf` case-insensitively are enumerated into
the document set, in storage order, each reported under its stamp-stripped
name; any other stored file is silently ignored and does not appear in the
sources of the successful response. -/
theorem c10_pdf_filter (st : Sessions) (freshId uid q ans : List Char)
    (names : List (List Char)) (textOf : List Char → List Char)
    (embOf : List Char → List ℝ) (qv : List ℝ)
    (huid : uid ≠ []) (hq : q ≠ [])
    (hlook : lookupSession st uid = some names)
    (hpdf : names.filter endsWithPdfCI ≠ []) :
    ∃ srcs, (askHandler st freshId (allOkOracles textOf embOf qv ans)
        ⟨[], some uid, some q⟩).1 = Response.ok ans srcs (some uid) ∧
      srcs.map (·.filename) = (names.filter endsWithPdfCI).map stripStamp := by
  refine ⟨okSources ((names.filter endsWithPdfCI).map fun n =>
    { originalname := stripStamp n, storedName := n }) textOf embOf qv, ?_, ?_⟩
  · rw [askHandler_followUp_ok st freshId uid q ans names textOf embOf qv huid hq hlook hpdf]
  · rw [okSources_names]
    simp [List.map_map, Function.comp]

/-- Closed instance of C10: a session holding one pdf-named file and one
other file reports only the pdf file, under its stamp-stripped name. -/
theorem c10_pdf_filter_witness :
    ∃ srcs, (askHandler [(['i'], [['6', '_', 'a', '.', 'p', 'd', 'f'], ['x']])] ['j']
        (allOkOracles (fun _ => []) (fun _ => []) [(0 : ℝ)] ['y'])
        ⟨[], some ['i'], some ['q']⟩).1 = Response.ok ['y'] srcs (some ['i']) ∧
      srcs.map (·.filename) =
        (([['6', '_', 'a', '.', 'p', 'd', 'f'], ['x']].filter endsWithPdfCI).map stripStamp) :=
  c10_pdf_filter [(['i'], [['6', '_', 'a', '.', 'p', 'd', 'f'], ['x']])] ['j'] ['i'] ['q'] ['y']
    [['6', '_', 'a', '.', 'p', 'd', 'f'], ['x']] (fun _ => []) (fun _ => []) [(0 : ℝ)]
    (by decide) (by decide) rfl (by decide)

/-! ## Stored-name lemmas -/

theorem takeWhile_dropWhile_stamp (p : Char → Bool) (a : List Char) (c : Char) (b : List Char)
    (ha : ∀ x ∈ a, p x = true) (hc : p c = false) :
    (a ++ c :: b).takeWhile p = a ∧ (a ++ c :: b).dropWhile p = c :: b := by
  induction a with
  | nil => simp [List.takeWhile_cons, List.dropWhile_cons, hc]
  | cons x xs ih =>
    have hx : p x = true := ha x (List.mem_cons_self x xs)
    have hrest := ih fun y hy => ha y (List.mem_cons_of_mem x hy)
    simp [List.takeWhile_cons, List.dropWhile_cons, hx, hrest.1, hrest.2]

theorem stripStamp_multer (stamp orig : List Char) (hne : stamp ≠ [])
    (hdig : ∀ c ∈ stamp, c.isDigit = true) :
    stripStamp (multerStoredName stamp orig) = sanitizeName orig := by
  unfold stripStamp multerStoredName
  have h := takeWhile_dropWhile_stamp Char.isDigit stamp '_' (sanitizeName orig) hdig (by decide)
  rw [h.1, h.2]
  cases stamp with
  | nil => exact absurd rfl hne
  | cons s ss => rfl

theorem suffix_append_right {s a b : List Char} (h : s <:+ a ++ b)
    (hlen : s.length ≤ b.length) : s <:+ b := by
  obtain ⟨u, hu⟩ := h
  rcases List.append_eq_append_iff.mp hu with ⟨w, _, hw2⟩ | ⟨w, _, hw2⟩
  · have hw0 : w = [] := by
      have hl := congrArg List.length hw2
      simp only [List.length_append] at hl
      have : w.length = 0 := by omega
      exact List.length_eq_zero.mp this
    subst hw0
    simp only [List.nil_append] at hw2
    exact hw2 ▸ List.suffix_refl b
  · exact ⟨w, hw2.symm⟩

theorem pdfSuffix_append (A B : List Char) :
    List.isSuffixOf ['.', 'p', 'd', 'f'] (A ++ '_' :: B) =
      List.isSuffixOf ['.', 'p', 'd', 'f'] B := by
  have hiff : List.isSuffixOf ['.', 'p', 'd', 'f'] (A ++ '_' :: B) = true ↔
      List.isSuffixOf ['.', 'p', 'd', 'f'] B = true := by
    rw [List.isSuffixOf_iff_suffix, List.isSuffixOf_iff_suffix]
    constructor
    · intro h
      by_cases hlen : 4 ≤ B.length
      · rw [List.append_cons] at h
        exact suffix_append_right h (by simpa)
      · exfalso
        obtain ⟨u, hu⟩ := h
        rcases List.append_eq_append_iff.mp hu with ⟨w, _, hw2⟩ | ⟨w, _, hw2⟩
        · have hmem : '_' ∈ ['.', 'p', 'd', 'f'] := by
            rw [hw2]
            exact List.mem_append_right w (List.mem_cons_self '_' B)
          exact absurd hmem (by decide)
        · have hl := congrArg List.length hw2
          simp only [List.length_cons, List.length_append] at hl
          have hw0 : w = [] := by
            have hwl : w.length = 0 := by omega
            exact List.length_eq_zero.mp hwl
          subst hw0
          simp only [List.nil_append] at hw2
          injection hw2 with h1 h2
          exact absurd h1 (by decide)
    · intro h
      rw [List.append_cons]
      exact h.trans (List.suffix_append _ B)
  cases hA : List.isSuffixOf ['.', 'p', 'd', 'f'] (A ++ '_' :: B) <;>
    cases hB : List.isSuffixOf ['.', 'p', 'd', 'f'] B
  · rfl
  · rw [hA] at hiff
    rw [hB] at hiff
    exact absurd (hiff.mpr rfl) (by simp)
  · rw [hA] at hiff
    rw [hB] at hiff
    exact absurd (hiff.mp rfl) (by simp)
  · rfl

theorem endsWithPdfCI_multer (stamp orig : List Char) :
    endsWithPdfCI (multerStoredName stamp orig) = endsWithPdfCI (sanitizeName orig) := by
  unfold endsWithPdfCI multerStoredName lowerName
  rw [List.map_append, List.map_cons]
  rw [show Char.toLower '_' = '_' from by decide]
  exact pdfSuffix_append (stamp.map Char.toLower) ((sanitizeName orig).map Char.toLower)

/-! ## Claim C4 -/

/-- C4 fails on the code: uploading the single file named "a b.pdf" (multer
stores it as "1_a_b.pdf") and feeding the returned session id back resolves
to the display name "a_b.pdf", which differs from the first-request display
name "a b.pdf" even after the stamp stripping: the multer sanitization (space
to underscore) is not undone. -/
theorem c4_counterexample :
    askHandler [] ['s'] ocZero
        ⟨[⟨['a', ' ', 'b', '.', 'p', 'd', 'f'],
            ['1', '_', 'a', '_', 'b', '.', 'p', 'd', 'f']⟩], none, some ['q']⟩ =
      (Response.ok [] [⟨['a', ' ', 'b', '.', 'p', 'd', 'f'], [(1, (0 : ℝ))]⟩] (some ['s']),
        [(['s'], [['1', '_', 'a', '_', 'b', '.', 'p', 'd', 'f']])]) ∧
    (askHandler [(['s'], [['1', '_', 'a', '_', 'b', '.', 'p', 'd', 'f']])] ['t'] ocZero
        ⟨[], some ['s'], some ['q']⟩).1 =
      Response.ok [] [⟨['a', '_', 'b', '.', 'p', 'd', 'f'], [(1, (0 : ℝ))]⟩] (some ['s']) ∧
    (['a', '_', 'b', '.', 'p', 'd', 'f'] : List Char) ≠ ['a', ' ', 'b', '.', 'p', 'd', 'f'] ∧
    stripStamp ['1', '_', 'a', '_', 'b', '.', 'p', 'd', 'f'] =
      ['a', '_', 'b', '.', 'p', 'd', 'f'] := by
  refine ⟨rfl, rfl, ?_, rfl⟩
  decide

/-- C4 amended: feeding the sessionId of a first upload back as uploadId on
a file-less follow-up resolves to the sanitized display names (every
character outside letters, digits, dot, dash and underscore replaced by an
underscore) of exactly those originally uploaded files whose sanitized names
end in ".pdf" case-insensitively; the stamp prefix the manager added at
creation time is stripped.  For files whose original names are already
sanitized and end in ".pdf", this set coincides with the original display
names. -/
theorem c4_roundtrip (st : Sessions) (freshId freshId2 q1 q2 ans1 ans2 : List Char)
    (fl : List (List Char × List Char))
    (textOf textOf2 : List Char → List Char) (embOf embOf2 : List Char → List ℝ)
    (qv qv2 : List ℝ)
    (hfl : fl ≠ [])
    (hstamp : ∀ p ∈ fl, p.2 ≠ [] ∧ ∀ c ∈ p.2, c.isDigit = true)
    (hfresh : freshId ≠ [])
    (hq1 : q1 ≠ []) (hq2 : q2 ≠ [])
    (hpdf : ∃ p ∈ fl, endsWithPdfCI (sanitizeName p.1) = true) :
    ∃ srcs1 srcs2 st1,
      askHandler st freshId (allOkOracles textOf embOf qv ans1)
          ⟨fl.map fun p => ⟨p.1, multerStoredName p.2 p.1⟩, none, some q1⟩ =
        (Response.ok ans1 srcs1 (some freshId), st1) ∧
      srcs1.map (·.filename) = fl.map (·.1) ∧
      (askHandler st1 freshId2 (allOkOracles textOf2 embOf2 qv2 ans2)
          ⟨[], some freshId, some q2⟩).1 = Response.ok ans2 srcs2 (some freshId) ∧
      srcs2.map (·.filename) = (fl.map fun p => sanitizeName p.1).filter endsWithPdfCI := by
  have hf1 : (fl.map fun p => (⟨p.1, multerStoredName p.2 p.1⟩ : ReqFile)) ≠ [] := by
    intro hcon
    exact hfl (List.map_eq_nil_iff.mp hcon)
  have h1 := askHandler_newUpload_ok st freshId q1 ans1
    (fl.map fun p => ⟨p.1, multerStoredName p.2 p.1⟩) textOf embOf qv hf1 hq1
  have hstored : (fl.map fun p => (⟨p.1, multerStoredName p.2 p.1⟩ : ReqFile)).map
      (·.storedName) = fl.map fun p => multerStoredName p.2 p.1 := by
    simp [List.map_map, Function.comp]
  have hfilter_eq : (fl.map fun p => multerStoredName p.2 p.1).filter endsWithPdfCI =
      (fl.filter fun p => endsWithPdfCI (sanitizeName p.1)).map
        fun p => multerStoredName p.2 p.1 := by
    rw [List.filter_map]
    congr 1
    apply List.filter_congr
    intro p _
    simp [Function.comp, endsWithPdfCI_multer]
  have hfilter_ne : (fl.map fun p => multerStoredName p.2 p.1).filter endsWithPdfCI ≠ [] := by
    rw [hfilter_eq]
    intro hcon
    obtain ⟨p, hp, hpdfp⟩ := hpdf
    have hmem : p ∈ fl.filter fun r => endsWithPdfCI (sanitizeName r.1) :=
      List.mem_filter.mpr ⟨hp, hpdfp⟩
    rw [List.map_eq_nil_iff.mp hcon] at hmem
    simp at hmem
  have hlook : lookupSession
      ((freshId, (fl.map fun p => (⟨p.1, multerStoredName p.2 p.1⟩ : ReqFile)).map
        (·.storedName)) :: st) freshId =
      some ((fl.map fun p => (⟨p.1, multerStoredName p.2 p.1⟩ : ReqFile)).map
        (·.storedName)) := by
    simp [lookupSession]
  have h2 := askHandler_followUp_ok
    ((freshId, (fl.map fun p => (⟨p.1, multerStoredName p.2 p.1⟩ : ReqFile)).map
      (·.storedName)) :: st)
    freshId2 freshId q2 ans2
    ((fl.map fun p => (⟨p.1, multerStoredName p.2 p.1⟩ : ReqFile)).map (·.storedName))
    textOf2 embOf2 qv2 hfresh hq2 hlook (by rw [hstored]; exact hfilter_ne)
  refine ⟨okSources (fl.map fun p => ⟨p.1, multerStoredName p.2 p.1⟩) textOf embOf qv,
    okSources ((((fl.map fun p => (⟨p.1, multerStoredName p.2 p.1⟩ : ReqFile)).map
        (·.storedName)).filter endsWithPdfCI).map fun n =>
      { originalname := stripStamp n, storedName := n }) textOf2 embOf2 qv2,
    (freshId, (fl.map fun p => (⟨p.1, multerStoredName p.2 p.1⟩ : ReqFile)).map
      (·.storedName)) :: st,
    h1, ?_, ?_, ?_⟩
  · rw [okSources_names]
    simp [List.map_map, Function.comp]
  · rw [h2]
  · rw [okSources_names, hstored, hfilter_eq]
    rw [List.filter_map]
    rw [List.map_map, List.map_map]
    apply List.map_congr_left
    intro p hp
    have hpmem : p ∈ fl := List.mem_of_mem_filter hp
    obtain ⟨hne, hdig⟩ := hstamp p hpmem
    simp [Function.comp, stripStamp_multer p.2 p.1 hne hdig]

/-- Closed instance of the amended C4: one file named "a.pdf" with stamp "7"
round-trips to the display name "a.pdf". -/
theorem c4_roundtrip_witness :
    ∃ srcs1 srcs2 st1,
      askHandler [] ['r'] (allOkOracles (fun _ => []) (fun _ => []) [(0 : ℝ)] ['v'])
          ⟨[(['a', '.', 'p', 'd', 'f'], ['7'])].map fun p =>
            ⟨p.1, multerStoredName p.2 p.1⟩, none, some ['q']⟩ =
        (Response.ok ['v'] srcs1 (some ['r']), st1) ∧
      srcs1.map (·.filename) = [(['a', '.', 'p', 'd', 'f'], ['7'])].map (·.1) ∧
      (askHandler st1 ['z'] (allOkOracles (fun _ => []) (fun _ => []) [(0 : ℝ)] ['w'])
          ⟨[], some ['r'], some ['q']⟩).1 = Response.ok ['w'] srcs2 (some ['r']) ∧
      srcs2.map (·.filename) =
        ([(['a', '.', 'p', 'd', 'f'], ['7'])].map fun p =>
          sanitizeName p.1).filter endsWithPdfCI :=
  c4_roundtrip [] ['r'] ['z'] ['q'] ['q'] ['v'] ['w'] [(['a', '.', 'p', 'd', 'f'], ['7'])]
    (fun _ => []) (fun _ => []) (fun _ => []) (fun _ => []) [(0 : ℝ)] [(0 : ℝ)]
    (by decide) (by decide) (by decide) (by decide) (by decide)
    ⟨(['a', '.', 'p', 'd', 'f'], ['7']), by decide⟩

end QA
